import Mathlib

/-!
Verification of the Minesweeper game engine found in `src/main.py`.

The development shallowly embeds the engine parts of the source:
mine placement (`place_mines` / `get_mines_places`), adjacency computation
(`calculate_adjacent_mines`), the flood-fill reveal (`reveal_empty_region`),
the win predicate (`check_win`), flag toggling (`toggle_flag`), leaderboard
loading (`load_leaderboards`), leaderboard update on a win
(`update_leaderboard`) and the win handler (`game_won`).

Cells are addressed by integer grid positions `(row, col)`; the interior of
an `h × w` board is `1 ≤ row ≤ h`, `1 ≤ col ≤ w`, with a sentinel border
ring around it, exactly as in the source's `(height+2) × (width+2)` button
array.  A board is a function from positions to cell records; the cell
record carries the source's `is_mine`, `adjacent_mines`, `is_open`
attributes together with the two Tk button attributes the logic reads:
the displayed `text` and whether the button `state` is `"disabled"`.
-/

namespace Minesweeper

/-- The displayed text of a grid button, as far as the game logic reads it:
empty, the flag glyph, or an adjacency digit. -/
inductive BtnText where
  | blank : BtnText
  | flag : BtnText
  | num : Nat → BtnText
deriving DecidableEq

/-- One grid cell: the `FieldButton` attributes that the engine logic
reads and writes (`is_mine`, `adjacent_mines`, `is_open`, the displayed
`text`, and whether the Tk `state` is `"disabled"`). -/
structure Cell where
  is_mine : Bool := false
  adjacent_mines : Nat := 0
  is_open : Bool := false
  text : BtnText := BtnText.blank
  disabled : Bool := false
deriving DecidableEq

/-- A grid position `(row, col)`. -/
abbrev Pos : Type := Int × Int

/-- A board assigns a cell to every position. -/
abbrev Board : Type := Pos → Cell

/-- Pointwise update of a board at one position. -/
def setCell (b : Board) (p : Pos) (c : Cell) : Board :=
  fun q => if q = p then c else b q

/-- Position `p` is an interior cell of an `h × w` board
(the source's `1 ≤ row ≤ height`, `1 ≤ col ≤ width`). -/
def InInterior (h w : Int) (p : Pos) : Prop :=
  1 ≤ p.1 ∧ p.1 ≤ h ∧ 1 ≤ p.2 ∧ p.2 ≤ w

instance (h w : Int) (p : Pos) : Decidable (InInterior h w p) := by
  unfold InInterior; infer_instance

/-- The interior positions of an `h × w` board as a finite set. -/
def interiorFinset (h w : Int) : Finset Pos :=
  (Finset.Icc 1 h) ×ˢ (Finset.Icc 1 w)

/-- The interior positions in the row-major order of the source's nested
`for i ... for j ...` loops. -/
def interiorList (h w : Int) : List Pos :=
  (List.range h.toNat).flatMap
    (fun i => (List.range w.toNat).map (fun j => ((i : Int) + 1, (j : Int) + 1)))

theorem mem_interiorFinset {h w : Int} {p : Pos} :
    p ∈ interiorFinset h w ↔ InInterior h w p := by
  cases p with
  | mk r c =>
    simp only [interiorFinset, InInterior, Finset.mem_product, Finset.mem_Icc]
    tauto

theorem mem_interiorList {h w : Int} {p : Pos} :
    p ∈ interiorList h w ↔ InInterior h w p := by
  cases p with
  | mk r c =>
    simp only [interiorList, InInterior]
    simp
    constructor
    · rintro ⟨i, hi, x, ⟨j, hj, rfl⟩, he1, he2⟩
      omega
    · rintro ⟨h1, h2, h3, h4⟩
      exact ⟨(r - 1).toNat, by omega, (c - 1 : Int),
        ⟨(c - 1).toNat, by omega, by omega⟩, by omega, by omega⟩

/-! ### Mine placement (`get_mines_places`, `place_mines`)

`get_mines_places(exclude_number)` builds `[1, …, width*height]`, removes
the first occurrence of `exclude_number`, shuffles the remainder, and keeps
the first `mines` elements.  The shuffle is the only randomness in the
program; it is embedded as an arbitrary list `shuffled` hypothesised to be
a permutation of the pool `mines_pool`. -/

/-- The pool of sequential indices `place_mines` can draw from:
`list(range(1, width*height + 1))` with `exclude_number` removed
(`list.remove` deletes the first occurrence, like `List.erase`). -/
def mines_pool (n exclude : Nat) : List Nat :=
  (List.range' 1 n).erase exclude

/-- `get_mines_places` after the shuffle: keep the first `mines` entries of
the shuffled pool (`indexes[:self.mines]`). -/
def get_mines_places (shuffled : List Nat) (mines : Nat) : List Nat :=
  shuffled.take mines

/-- `place_mines` viewed through the sequential numbering of interior
cells: starting from the all-`False` grid, the cell numbered `number` ends
with `is_mine = True` exactly when `number` is in `index_mines`. -/
def place_mines_is_mine (index_mines : List Nat) (number : Nat) : Bool :=
  number ∈ index_mines

/-! ### Adjacency computation (`calculate_adjacent_mines`) -/

/-- The nine `(row_dx, col_dx)` offsets of the source's two nested loops
over `[-1, 0, 1]`, in iteration order. -/
def offsets : List (Int × Int) :=
  [(-1, -1), (-1, 0), (-1, 1), (0, -1), (0, 0), (0, 1), (1, -1), (1, 0), (1, 1)]

/-- The eight proper neighbours of a position. -/
def neighbors8 (p : Pos) : List Pos :=
  [(p.1 - 1, p.2 - 1), (p.1 - 1, p.2), (p.1 - 1, p.2 + 1),
   (p.1, p.2 - 1), (p.1, p.2 + 1),
   (p.1 + 1, p.2 - 1), (p.1 + 1, p.2), (p.1 + 1, p.2 + 1)]

/-- `calculate_adjacent_mines` for one cell: `0` for a mine cell (the
accumulating loop is skipped), otherwise the number of offsets whose
neighbour has `is_mine` set (the source iterates all nine offsets,
including `(0, 0)`). -/
def calculate_adjacent_mines (b : Board) (p : Pos) : Nat :=
  if (b p).is_mine then 0
  else offsets.countP (fun d => (b (p.1 + d.1, p.2 + d.2)).is_mine)

/-! ### Flood-fill reveal (`reveal_empty_region`)

The source keeps a work list `queue`, pops from its end (`list.pop()`),
updates the popped button — the display `config` calls are guarded by
`if not cur_btn.cget("text") == "🚩"`, while `cur_btn.is_open = True` is
executed unconditionally — and, when the popped cell has zero adjacent
mines, appends every neighbour that is not open, lies in the interior and
is not already pending.  The loop body is embedded as `floodStep`; the
`while queue:` loop as the fuel-driven `floodRun`. -/

/-- The in-flight state of one `reveal_empty_region` call. -/
structure FloodState where
  board : Board
  queue : List Pos

/-- One step of the neighbour-enqueueing inner loops: append
`(row + dx, col + dy)` to the work list when it is not open, is interior,
and is not already pending. -/
def enqueueStep (h w : Int) (b : Board) (cur : Pos) (acc : List Pos)
    (d : Int × Int) : List Pos :=
  if (b (cur.1 + d.1, cur.2 + d.2)).is_open = false
      ∧ InInterior h w (cur.1 + d.1, cur.2 + d.2)
      ∧ (cur.1 + d.1, cur.2 + d.2) ∉ acc
  then acc ++ [(cur.1 + d.1, cur.2 + d.2)] else acc

/-- The neighbour-enqueueing inner loops: `enqueueStep` over the nine
offsets in iteration order. -/
def enqueueNeighbors (h w : Int) (b : Board) (cur : Pos) (q : List Pos) : List Pos :=
  offsets.foldl (enqueueStep h w b cur) q

/-- One iteration of the `while queue:` loop of `reveal_empty_region`. -/
def floodStep (h w : Int) (s : FloodState) : FloodState :=
  match s.queue.getLast? with
  | none => s
  | some cur =>
      let rest := s.queue.dropLast
      let c := s.board cur
      let c1 :=
        if c.text = BtnText.flag then c
        else { c with
               text := if c.adjacent_mines ≠ 0 then BtnText.num c.adjacent_mines
                       else BtnText.blank,
               disabled := true }
      let c2 := { c1 with is_open := true }
      let b1 := setCell s.board cur c2
      let q1 := if c.adjacent_mines = 0 then enqueueNeighbors h w b1 cur rest else rest
      ⟨b1, q1⟩

/-- The `while queue:` loop, driven by a fuel argument: stop when the work
list is empty, otherwise run one `floodStep` and recurse. -/
def floodRun (h w : Int) : Nat → FloodState → FloodState
  | 0, s => s
  | n + 1, s => if s.queue = [] then s else floodRun h w n (floodStep h w s)

/-- Fuel that section `reveal_terminates` proves sufficient for any board:
one more than twice the number of interior cells. -/
def floodFuel (h w : Int) : Nat :=
  2 * (h.toNat * w.toNat) + 1

/-- `reveal_empty_region(btn)`: run the flood fill to completion starting
from the work list `[btn]` and return the final board. -/
def reveal_empty_region (h w : Int) (b : Board) (p : Pos) : Board :=
  (floodRun h w (floodFuel h w) ⟨b, [p]⟩).board

/-! ### Flag toggle (`toggle_flag`)

The handler returns immediately when the game is over.  Otherwise, if the
button's Tk `state` is `"normal"` and flags remain, it is flagged
(disabled, text set to the flag glyph) and the counter decremented; else
if its text is the flag glyph it is unflagged (state back to `"normal"`,
text cleared) and the counter incremented; otherwise nothing happens. -/

/-- `toggle_flag`, returning the new `flags_left` and the new board. -/
def toggle_flag (game_over : Bool) (flags_left : Int) (b : Board) (p : Pos) :
    Int × Board :=
  if game_over then (flags_left, b)
  else
    let c := b p
    if c.disabled = false ∧ 0 < flags_left then
      (flags_left - 1, setCell b p { c with disabled := true, text := BtnText.flag })
    else if c.text = BtnText.flag then
      (flags_left + 1, setCell b p { c with disabled := false, text := BtnText.blank })
    else (flags_left, b)

/-- The number of interior cells currently displaying a flag. -/
def flaggedCount (h w : Int) (b : Board) : Nat :=
  ((interiorFinset h w).filter (fun q => (b q).text = BtnText.flag)).card

/-! ### Win predicate (`check_win`) -/

/-- `check_win`: scan all interior cells; the game is won unless some
non-mine cell is closed or some non-mine cell displays a flag. -/
def check_win (h w : Int) (b : Board) : Bool :=
  (interiorList h w).all fun p =>
    !((!(b p).is_mine && !(b p).is_open) ||
      (decide ((b p).text = BtnText.flag) && !(b p).is_mine))

/-! ### Leaderboards (`load_leaderboards`, `update_leaderboard`, `game_won`) -/

/-- The source's `LeaderboardEntry` namedtuple. -/
structure LeaderboardEntry where
  name : String
  time : Int
deriving DecidableEq

/-- The sort key of `entries.sort(key=lambda x: x.time)`: compare entries
by their `time` field. -/
def entLe (a b : LeaderboardEntry) : Prop :=
  a.time ≤ b.time

instance : DecidableRel entLe := fun a b => by unfold entLe; infer_instance

instance : IsTotal LeaderboardEntry entLe :=
  ⟨fun a b => Int.le_total a.time b.time⟩

instance : IsTrans LeaderboardEntry entLe :=
  ⟨fun _ _ _ hab hbc => le_trans hab hbc⟩

/-- Python's stable ascending `list.sort(key=lambda x: x.time)`. -/
def sortByTime (l : List LeaderboardEntry) : List LeaderboardEntry :=
  l.insertionSort entLe

/-- Decimal digits possibly separated by single underscores, as accepted
by Python's `int` after the sign: the first character must be a digit, and
every underscore must be followed by a digit.  Returns the accumulated
value, or `none` on any other character. -/
def parseDigitsAux : Nat → List Char → Option Nat
  | acc, [] => some acc
  | acc, ch :: cs =>
      if ch.isDigit then parseDigitsAux (acc * 10 + (ch.toNat - 48)) cs
      else if ch = '_' then
        match cs with
        | [] => none
        | d :: cs' =>
            if d.isDigit then parseDigitsAux (acc * 10 + (d.toNat - 48)) cs'
            else none
      else none

/-- A non-empty digit run (with optional internal underscores). -/
def parseDigits : List Char → Option Nat
  | [] => none
  | ch :: cs => if ch.isDigit then parseDigitsAux (ch.toNat - 48) cs else none

/-- Modelled from the language runtime: Python's built-in `int(str)` as the
source applies it to a CSV field — surrounding whitespace is stripped, an
optional single sign is allowed, then a non-empty digit run; anything else
raises `ValueError`, embedded as `none`. -/
def pythonInt (s : String) : Option Int :=
  match s.trim.toList with
  | '+' :: rest => (parseDigits rest).map (fun n => (n : Int))
  | '-' :: rest => (parseDigits rest).map (fun n => -(n : Int))
  | cs => (parseDigits cs).map (fun n => (n : Int))

/-- The per-row body of `load_leaderboards`: a row is kept only when it
has exactly two fields, its second field parses as an integer (a
`ValueError` skips the row) and that integer is positive; a kept time
above `999` is clamped to `999` and an empty name becomes `"Anonymous"`. -/
def parseRow : List String → Option LeaderboardEntry
  | [name, timeStr] =>
      match pythonInt timeStr with
      | none => none
      | some t =>
          if 0 < t then
            some ⟨if name = "" then "Anonymous" else name,
                  if 999 < t then 999 else t⟩
          else none
  | _ => none

/-- `load_leaderboards` for one difficulty, applied to the parsed CSV rows
of its file: keep the well-formed rows, sort ascending by time with
Python's stable sort, keep the first five. -/
def load_rows (rows : List (List String)) : List LeaderboardEntry :=
  (sortByTime (rows.filterMap parseRow)).take 5

/-- The qualification test of `update_leaderboard`:
`len(entries) < 5 or time_elapsed < entries[-1].time`. -/
def qualifies (entries : List LeaderboardEntry) (t : Int) : Bool :=
  decide (entries.length < 5) ||
    (match entries.getLast? with
     | none => false
     | some e => decide (t < e.time))

/-- `update_leaderboard` after the reload, acting on the loaded entries of
the winning difficulty: when the time qualifies, prompt for a name, append
the new entry with the raw elapsed time, sort, truncate to five and save;
otherwise leave everything untouched.  The boolean reports whether the
prompt/save path ran. -/
def update_leaderboard (entries : List LeaderboardEntry) (player_name : String)
    (time_elapsed : Int) : List LeaderboardEntry × Bool :=
  if qualifies entries time_elapsed then
    ((sortByTime (entries ++ [⟨player_name, time_elapsed⟩])).take 5, true)
  else (entries, false)

/-- The three difficulty tiers that own a leaderboard file. -/
inductive Difficulty where
  | beginner : Difficulty
  | intermediate : Difficulty
  | expert : Difficulty
deriving DecidableEq

/-- `game_won`'s difficulty detection: compare
`(self.height, self.width, self.mines)` against `BEGINNER_OPTIONS`,
`INTERMEDIATE_OPTIONS` and `EXPERT_OPTIONS` in turn. -/
def difficultyOf (h w m : Int) : Option Difficulty :=
  if h = 9 ∧ w = 9 ∧ m = 15 then some Difficulty.beginner
  else if h = 16 ∧ w = 16 ∧ m = 40 then some Difficulty.intermediate
  else if h = 16 ∧ w = 30 ∧ m = 99 then some Difficulty.expert
  else none

/-- The observable outcome of `game_won`: the in-memory leaderboards,
whether the name prompt was shown, and whether the files were rewritten. -/
structure GameWonResult where
  leaderboards : Difficulty → List LeaderboardEntry
  prompted : Bool
  saved : Bool

/-- The leaderboard-affecting tail of `game_won`, taking the elapsed time
(computed, unclamped, from the wall clock), the current in-memory
leaderboards, the on-disk CSV rows per difficulty and the name the player
would enter if prompted.  On a preset difficulty, `update_leaderboard`
first reloads every leaderboard from disk, then appends the new entry when
the time qualifies; on a non-preset difficulty nothing at all happens. -/
def game_won (h w m : Int) (elapsed : Int)
    (mem : Difficulty → List LeaderboardEntry)
    (disk : Difficulty → List (List String)) (player_name : String) :
    GameWonResult :=
  match difficultyOf h w m with
  | none => ⟨mem, false, false⟩
  | some d =>
      let loaded : Difficulty → List LeaderboardEntry :=
        fun d2 => load_rows (disk d2)
      if qualifies (loaded d) elapsed then
        ⟨fun d2 =>
            if d2 = d then (update_leaderboard (loaded d) player_name elapsed).1
            else loaded d2,
         true, true⟩
      else ⟨loaded, false, false⟩

/-! ## Claim C1: mine placement -/

theorem mines_pool_nodup (n exclude : Nat) : (mines_pool n exclude).Nodup :=
  (List.nodup_range' 1 n).erase exclude

theorem mem_mines_pool {n exclude k : Nat} (_hex1 : 1 ≤ exclude) (_hex2 : exclude ≤ n) :
    k ∈ mines_pool n exclude ↔ (1 ≤ k ∧ k ≤ n ∧ k ≠ exclude) := by
  rw [mines_pool, (List.nodup_range' 1 n).mem_erase_iff, List.mem_range'_1]
  omega

theorem mines_pool_length {n exclude : Nat} (hex1 : 1 ≤ exclude) (hex2 : exclude ≤ n) :
    (mines_pool n exclude).length = n - 1 := by
  rw [mines_pool, List.length_erase_of_mem, List.length_range']
  rw [List.mem_range'_1]
  omega

/-- C1: for a valid configuration (`mineCount < height*width`, excluded
sequential index within `1..height*width`) and any outcome of the shuffle,
`place_mines` marks exactly `mineCount` interior cells as mines, the drawn
indices are pairwise distinct, and the first-clicked (excluded) cell is
never a mine. -/
theorem place_mines_spec (h w m exclude : Nat) (shuffled : List Nat)
    (hm : m < h * w) (hex1 : 1 ≤ exclude) (hex2 : exclude ≤ h * w)
    (hperm : shuffled.Perm (mines_pool (h * w) exclude)) :
    ((Finset.Icc 1 (h * w)).filter
        (fun k => place_mines_is_mine (get_mines_places shuffled m) k = true)).card = m
    ∧ (get_mines_places shuffled m).Nodup
    ∧ place_mines_is_mine (get_mines_places shuffled m) exclude = false := by
  set mines := get_mines_places shuffled m with hmines
  have hsub : List.Sublist mines shuffled := List.take_sublist m shuffled
  have hmem_pool : ∀ k ∈ mines, k ∈ mines_pool (h * w) exclude := fun k hk =>
    hperm.mem_iff.mp (hsub.mem hk)
  have hnodup : mines.Nodup :=
    hsub.nodup (hperm.nodup_iff.mpr (mines_pool_nodup _ _))
  have hnotmem : place_mines_is_mine mines exclude = false := by
    simp only [place_mines_is_mine, decide_eq_false_iff_not]
    intro hmem
    have := (mem_mines_pool hex1 hex2).mp (hmem_pool exclude hmem)
    exact this.2.2 rfl
  refine ⟨?_, hnodup, hnotmem⟩
  have hfilter :
      (Finset.Icc 1 (h * w)).filter
        (fun k => place_mines_is_mine mines k = true) = mines.toFinset := by
    ext k
    simp only [Finset.mem_filter, Finset.mem_Icc, List.mem_toFinset,
      place_mines_is_mine, decide_eq_true_eq]
    constructor
    · exact fun hk => hk.2
    · intro hk
      have := (mem_mines_pool hex1 hex2).mp (hmem_pool k hk)
      exact ⟨⟨this.1, this.2.1⟩, hk⟩
  rw [hfilter, List.toFinset_card_of_nodup hnodup, hmines, get_mines_places,
    List.length_take, hperm.length_eq, mines_pool_length hex1 hex2]
  omega

/-- C1 witness: a 2×2 board with 2 mines, first click on index 1, and one
concrete shuffle outcome. -/
theorem place_mines_spec_witness :
    (2 < 2 * 2 ∧ 1 ≤ 1 ∧ 1 ≤ 2 * 2 ∧
      ([3, 2, 4] : List Nat).Perm (mines_pool (2 * 2) 1)) ∧
    (((Finset.Icc 1 (2 * 2)).filter
        (fun k => place_mines_is_mine (get_mines_places [3, 2, 4] 2) k = true)).card = 2
      ∧ (get_mines_places [3, 2, 4] 2).Nodup
      ∧ place_mines_is_mine (get_mines_places [3, 2, 4] 2) 1 = false) :=
  ⟨by decide, place_mines_spec 2 2 2 1 [3, 2, 4] (by decide) (by decide) (by decide)
    (by decide)⟩

/-! ## Claim C5: adjacency computation -/

/-- C5: for every non-mine interior cell, `calculate_adjacent_mines` yields
exactly the number of mines among its eight neighbours — a value at most
eight — and, when no cell outside the interior carries a mine (as the
source guarantees, `place_mines` only marking interior cells), the same
count restricted to interior neighbours, so the border ring contributes
nothing. -/
theorem calculate_adjacent_mines_spec (h w : Int) (b : Board) (p : Pos)
    (hmine : (b p).is_mine = false)
    (hborder : ∀ q ∈ neighbors8 p, ¬InInterior h w q → (b q).is_mine = false) :
    calculate_adjacent_mines b p = (neighbors8 p).countP (fun q => (b q).is_mine)
    ∧ calculate_adjacent_mines b p
        = (neighbors8 p).countP (fun q => (b q).is_mine && decide (InInterior h w q))
    ∧ calculate_adjacent_mines b p ≤ 8 := by
  have h1 : calculate_adjacent_mines b p
      = (neighbors8 p).countP (fun q => (b q).is_mine) := by
    obtain ⟨r, c⟩ := p
    simp only [calculate_adjacent_mines, hmine, if_false, Bool.false_eq_true,
      offsets, neighbors8, List.countP_cons, List.countP_nil]
    simp only [add_zero, sub_eq_add_neg, hmine]
    simp
  have h2 : (neighbors8 p).countP (fun q => (b q).is_mine)
      = (neighbors8 p).countP (fun q => (b q).is_mine && decide (InInterior h w q)) := by
    apply List.countP_congr
    intro q hq
    by_cases hqi : InInterior h w q
    · simp [hqi]
    · simp [hborder q hq hqi, hqi]
  refine ⟨h1, h1.trans h2, ?_⟩
  rw [h1]
  exact le_trans (List.countP_le_length _) (by rfl)

/-- C5 witness: a 3×3 board with mines at `(1, 2)` and `(3, 3)`, evaluated
at the non-mine interior cell `(2, 2)`. -/
theorem calculate_adjacent_mines_spec_witness :
    (((fun q => if q = ((1 : Int), (2 : Int)) ∨ q = ((3 : Int), (3 : Int))
        then ({ is_mine := true } : Cell) else {}) ((2 : Int), (2 : Int))).is_mine = false
      ∧ ∀ q ∈ neighbors8 ((2 : Int), (2 : Int)), ¬InInterior 3 3 q →
          ((fun q => if q = ((1 : Int), (2 : Int)) ∨ q = ((3 : Int), (3 : Int))
            then ({ is_mine := true } : Cell) else {}) q).is_mine = false)
    ∧ (calculate_adjacent_mines
        (fun q => if q = ((1 : Int), (2 : Int)) ∨ q = ((3 : Int), (3 : Int))
          then ({ is_mine := true } : Cell) else {}) ((2 : Int), (2 : Int))
        = (neighbors8 ((2 : Int), (2 : Int))).countP
            (fun q => ((fun q => if q = ((1 : Int), (2 : Int)) ∨ q = ((3 : Int), (3 : Int))
              then ({ is_mine := true } : Cell) else {}) q).is_mine)
      ∧ calculate_adjacent_mines
          (fun q => if q = ((1 : Int), (2 : Int)) ∨ q = ((3 : Int), (3 : Int))
            then ({ is_mine := true } : Cell) else {}) ((2 : Int), (2 : Int))
          = (neighbors8 ((2 : Int), (2 : Int))).countP
              (fun q => ((fun q => if q = ((1 : Int), (2 : Int)) ∨ q = ((3 : Int), (3 : Int))
                then ({ is_mine := true } : Cell) else {}) q).is_mine
                && decide (InInterior 3 3 q))
      ∧ calculate_adjacent_mines
          (fun q => if q = ((1 : Int), (2 : Int)) ∨ q = ((3 : Int), (3 : Int))
            then ({ is_mine := true } : Cell) else {}) ((2 : Int), (2 : Int)) ≤ 8) :=
  ⟨by decide, calculate_adjacent_mines_spec 3 3 _ _ (by decide) (by decide)⟩

/-! ## Claim C3: the win predicate -/

/-- C3: `check_win` is `True` exactly when every non-mine interior cell is
open and no non-mine interior cell displays a flag; so it is `False`
whenever a non-mine cell is still closed, and `False` whenever a flag sits
on a non-mine cell, even with every non-mine cell open. -/
theorem check_win_iff (h w : Int) (b : Board) :
    check_win h w b = true ↔
      ((∀ p, InInterior h w p → (b p).is_mine = false → (b p).is_open = true)
        ∧ (∀ p, InInterior h w p → (b p).is_mine = false →
            (b p).text ≠ BtnText.flag)) := by
  simp only [check_win, List.all_eq_true, mem_interiorList]
  constructor
  · intro hall
    constructor
    · intro p hp hm
      have hx := hall p hp
      simp [hm] at hx
      exact hx.1
    · intro p hp hm
      have hx := hall p hp
      simp [hm] at hx
      exact hx.2
  · rintro ⟨hopen, hflag⟩ p hp
    by_cases hm : (b p).is_mine = false
    · simp [hm, hopen p hp hm, hflag p hp hm]
    · simp at hm
      simp [hm]

/-! ## Claim C9: flag toggling -/

theorem filter_card_update {S : Finset Pos} {p : Pos} (hp : p ∈ S)
    (f g : Pos → Prop) [DecidablePred f] [DecidablePred g]
    (hagree : ∀ q ∈ S, q ≠ p → (f q ↔ g q)) :
    (S.filter g).card + (if f p then 1 else 0)
      = (S.filter f).card + (if g p then 1 else 0) := by
  have hS : S = insert p (S.erase p) := (Finset.insert_erase hp).symm
  have hfg : (S.erase p).filter f = (S.erase p).filter g := by
    apply Finset.filter_congr
    intro q hq
    have hq' := Finset.mem_erase.mp hq
    exact hagree q hq'.2 hq'.1
  have hpf : p ∉ (S.erase p).filter f := fun hc =>
    (Finset.mem_erase.mp (Finset.mem_filter.mp hc).1).1 rfl
  have hpg : p ∉ (S.erase p).filter g := fun hc =>
    (Finset.mem_erase.mp (Finset.mem_filter.mp hc).1).1 rfl
  rw [hS, Finset.filter_insert, Finset.filter_insert]
  by_cases hf : f p <;> by_cases hg : g p <;>
    simp [hf, hg, Finset.card_insert_of_not_mem, hpf, hpg, hfg]

theorem flaggedCount_setCell (h w : Int) (b : Board) (p : Pos) (c : Cell)
    (hp : InInterior h w p) :
    flaggedCount h w (setCell b p c) + (if (b p).text = BtnText.flag then 1 else 0)
      = flaggedCount h w b + (if c.text = BtnText.flag then 1 else 0) := by
  unfold flaggedCount
  have := filter_card_update (mem_interiorFinset.mpr hp)
    (fun q => (b q).text = BtnText.flag)
    (fun q => ((setCell b p c) q).text = BtnText.flag)
    (fun q _ hq => by simp [setCell, hq])
  simpa [setCell] using this

/-- C9: `toggle_flag` is a no-op when the game is over or the cell is
displayed as open (disabled without a flag); on a closed unflagged cell it
flags the cell and decrements the counter exactly when `flags_left > 0`
(and does nothing when the counter is exhausted, so it never drops below
zero); on a flagged cell it unflags and increments.  The decrements and
increments pair one-to-one with the flags on the board: the sum of the
counter and the number of flagged interior cells is invariant, so starting
from `flags_left + flags-on-board = mines` the counter can never exceed
`mines` nor go below zero. -/
theorem toggle_flag_spec (h w : Int) (game_over : Bool) (flags_left : Int)
    (b : Board) (p : Pos) (mines : Int) (hp : InInterior h w p)
    (hflags : 0 ≤ flags_left)
    (hconsist : (b p).text = BtnText.flag → (b p).disabled = true)
    (hinv : flags_left + (flaggedCount h w b : Int) = mines) :
    (game_over = true → toggle_flag game_over flags_left b p = (flags_left, b))
    ∧ (game_over = false → (b p).disabled = true → (b p).text ≠ BtnText.flag →
        toggle_flag game_over flags_left b p = (flags_left, b))
    ∧ (game_over = false → (b p).disabled = false → 0 < flags_left →
        toggle_flag game_over flags_left b p
          = (flags_left - 1,
             setCell b p { b p with disabled := true, text := BtnText.flag }))
    ∧ (game_over = false → (b p).disabled = false → (b p).text ≠ BtnText.flag →
        flags_left ≤ 0 → toggle_flag game_over flags_left b p = (flags_left, b))
    ∧ (game_over = false → (b p).disabled = true → (b p).text = BtnText.flag →
        toggle_flag game_over flags_left b p
          = (flags_left + 1,
             setCell b p { b p with disabled := false, text := BtnText.blank }))
    ∧ (0 ≤ (toggle_flag game_over flags_left b p).1
        ∧ (toggle_flag game_over flags_left b p).1
            + (flaggedCount h w (toggle_flag game_over flags_left b p).2 : Int) = mines
        ∧ (toggle_flag game_over flags_left b p).1 ≤ mines) := by
  have hcount := fun c => flaggedCount_setCell h w b p c hp
  refine ⟨?_, ?_, ?_, ?_, ?_, ?_⟩
  · intro hgo; simp [toggle_flag, hgo]
  · intro hgo hdis hfl; simp [toggle_flag, hgo, hdis, hfl]
  · intro hgo hdis hpos; simp [toggle_flag, hgo, hdis, hpos]
  · intro hgo hdis hfl hle
    have : ¬(0 < flags_left) := by omega
    simp [toggle_flag, hgo, hdis, hfl, this]
  · intro hgo hdis hfl; simp [toggle_flag, hgo, hdis, hfl]
  · have hnn : (0 : Int) ≤ (flaggedCount h w b : Int) := Int.natCast_nonneg _
    by_cases hgo : game_over = true
    · have heq : toggle_flag game_over flags_left b p = (flags_left, b) := by
        simp [toggle_flag, hgo]
      rw [heq]
      exact ⟨hflags, hinv, by omega⟩
    · have hgo' : game_over = false := by
        cases game_over <;> simp_all
      by_cases hdis : (b p).disabled = false
      · have hfl : (b p).text ≠ BtnText.flag := fun hc => by
          rw [hconsist hc] at hdis; exact Bool.true_eq_false.mp hdis
        by_cases hpos : 0 < flags_left
        · have heq : toggle_flag game_over flags_left b p
              = (flags_left - 1,
                 setCell b p
                   { is_mine := (b p).is_mine, adjacent_mines := (b p).adjacent_mines,
                     is_open := (b p).is_open, text := BtnText.flag, disabled := true }) := by
            simp [toggle_flag, hgo', hdis, hpos]
          have hc2 := hcount
            { is_mine := (b p).is_mine, adjacent_mines := (b p).adjacent_mines,
              is_open := (b p).is_open, text := BtnText.flag, disabled := true }
          simp [hfl] at hc2
          rw [heq]
          refine ⟨by omega, ?_, by omega⟩
          show flags_left - 1
              + (flaggedCount h w
                  (setCell b p
                    { is_mine := (b p).is_mine, adjacent_mines := (b p).adjacent_mines,
                      is_open := (b p).is_open, text := BtnText.flag,
                      disabled := true }) : Int)
              = mines
          omega
        · have heq : toggle_flag game_over flags_left b p = (flags_left, b) := by
            simp [toggle_flag, hgo', hdis, hpos, hfl]
          rw [heq]
          exact ⟨hflags, hinv, by omega⟩
      · have hdis' : (b p).disabled = true := by
          cases hde : (b p).disabled <;> simp_all
        by_cases hfl : (b p).text = BtnText.flag
        · have heq : toggle_flag game_over flags_left b p
              = (flags_left + 1,
                 setCell b p
                   { is_mine := (b p).is_mine, adjacent_mines := (b p).adjacent_mines,
                     is_open := (b p).is_open, text := BtnText.blank, disabled := false }) := by
            simp [toggle_flag, hgo', hdis', hfl]
          have hc2 := hcount
            { is_mine := (b p).is_mine, adjacent_mines := (b p).adjacent_mines,
              is_open := (b p).is_open, text := BtnText.blank, disabled := false }
          simp [hfl] at hc2
          rw [heq]
          refine ⟨by omega, ?_, by omega⟩
          show flags_left + 1
              + (flaggedCount h w
                  (setCell b p
                    { is_mine := (b p).is_mine, adjacent_mines := (b p).adjacent_mines,
                      is_open := (b p).is_open, text := BtnText.blank,
                      disabled := false }) : Int)
              = mines
          omega
        · have heq : toggle_flag game_over flags_left b p = (flags_left, b) := by
            simp [toggle_flag, hgo', hdis', hfl]
          rw [heq]
          exact ⟨hflags, hinv, by omega⟩

/-- C9 witness: a closed, unflagged 1×1 board with one flag available. -/
theorem toggle_flag_spec_witness :
    (InInterior 1 1 ((1 : Int), (1 : Int)) ∧ (0 : Int) ≤ 1
      ∧ ((((fun _ => {}) : Board) ((1 : Int), (1 : Int))).text = BtnText.flag →
          (((fun _ => {}) : Board) ((1 : Int), (1 : Int))).disabled = true)
      ∧ (1 : Int) + (flaggedCount 1 1 (fun _ => {}) : Int) = 1)
    ∧ ((false = true → toggle_flag false 1 (fun _ => {}) ((1 : Int), (1 : Int))
          = (1, fun _ => {}))
      ∧ (false = false →
          (((fun _ => {}) : Board) ((1 : Int), (1 : Int))).disabled = true →
          (((fun _ => {}) : Board) ((1 : Int), (1 : Int))).text ≠ BtnText.flag →
          toggle_flag false 1 (fun _ => {}) ((1 : Int), (1 : Int)) = (1, fun _ => {}))
      ∧ (false = false →
          (((fun _ => {}) : Board) ((1 : Int), (1 : Int))).disabled = false →
          (0 : Int) < 1 →
          toggle_flag false 1 (fun _ => {}) ((1 : Int), (1 : Int))
            = (1 - 1,
               setCell (fun _ => {}) ((1 : Int), (1 : Int))
                 { (((fun _ => {}) : Board) ((1 : Int), (1 : Int))) with
                   disabled := true, text := BtnText.flag }))
      ∧ (false = false →
          (((fun _ => {}) : Board) ((1 : Int), (1 : Int))).disabled = false →
          (((fun _ => {}) : Board) ((1 : Int), (1 : Int))).text ≠ BtnText.flag →
          (1 : Int) ≤ 0 →
          toggle_flag false 1 (fun _ => {}) ((1 : Int), (1 : Int)) = (1, fun _ => {}))
      ∧ (false = false →
          (((fun _ => {}) : Board) ((1 : Int), (1 : Int))).disabled = true →
          (((fun _ => {}) : Board) ((1 : Int), (1 : Int))).text = BtnText.flag →
          toggle_flag false 1 (fun _ => {}) ((1 : Int), (1 : Int))
            = (1 + 1,
               setCell (fun _ => {}) ((1 : Int), (1 : Int))
                 { (((fun _ => {}) : Board) ((1 : Int), (1 : Int))) with
                   disabled := false, text := BtnText.blank }))
      ∧ (0 ≤ (toggle_flag false 1 (fun _ => {}) ((1 : Int), (1 : Int))).1
          ∧ (toggle_flag false 1 (fun _ => {}) ((1 : Int), (1 : Int))).1
              + (flaggedCount 1 1
                  (toggle_flag false 1 (fun _ => {}) ((1 : Int), (1 : Int))).2 : Int) = 1
          ∧ (toggle_flag false 1 (fun _ => {}) ((1 : Int), (1 : Int))).1 ≤ 1)) :=
  ⟨⟨by decide, by decide, by intro hc; exact absurd hc (by decide), by decide⟩,
    toggle_flag_spec 1 1 false 1 (fun _ => {}) ((1 : Int), (1 : Int)) 1
      (by decide) (by decide) (fun hc => absurd hc (by decide)) (by decide)⟩

/-! ## Claim C2: the flood fill and flagged cells

In the source, `cur_btn.is_open = True` sits outside the
`if not cur_btn.cget("text") == "🚩"` guard, so a flagged cell swept up by
the flood fill keeps its flag on screen but still becomes open. -/

/-- A 1×2 mine-free board whose zero-adjacency interior is fully
connected, with a flag displayed on cell `(1, 2)`. -/
def floodFlagBoard : Board := fun q =>
  if q = ((1 : Int), (2 : Int)) then { text := BtnText.flag, disabled := true }
  else {}

/-- C2 counterexample: revealing `(1, 1)` on `floodFlagBoard` floods into
the flagged cell `(1, 2)`, which ends with `is_open = true` while still
displaying its flag — a cell that is both flagged and open. -/
theorem reveal_opens_flagged_counterexample :
    (floodFlagBoard ((1 : Int), (2 : Int))).text = BtnText.flag
    ∧ ((reveal_empty_region 1 2 floodFlagBoard (1, 1)) ((1 : Int), (2 : Int))).text
        = BtnText.flag
    ∧ ((reveal_empty_region 1 2 floodFlagBoard (1, 1)) ((1 : Int), (2 : Int))).is_open
        = true := by
  decide

theorem floodStep_text_flag (h w : Int) (s : FloodState) (q : Pos) :
    (((floodStep h w s).board q).text = BtnText.flag)
      ↔ ((s.board q).text = BtnText.flag) := by
  unfold floodStep
  split
  · exact Iff.rfl
  · rename_i cur hcur
    simp only [setCell]
    by_cases hq : q = cur
    · subst hq
      simp only [if_pos rfl]
      by_cases hfl : (s.board q).text = BtnText.flag
      · simp [hfl]
      · simp only [hfl, if_false, iff_false]
        by_cases ha : (s.board q).adjacent_mines = 0 <;> simp [ha]
    · simp [hq]

theorem floodRun_text_flag (h w : Int) :
    ∀ (n : Nat) (s : FloodState) (q : Pos),
      (((floodRun h w n s).board q).text = BtnText.flag)
        ↔ ((s.board q).text = BtnText.flag) := by
  intro n
  induction n with
  | zero => intro s q; exact Iff.rfl
  | succ n ih =>
      intro s q
      by_cases hq : s.queue = []
      · simp [floodRun, hq]
      · rw [floodRun, if_neg hq]
        exact (ih (floodStep h w s) q).trans (floodStep_text_flag h w s q)

/-- C2 amended: the flood fill never adds or removes a displayed flag —
after `reveal_empty_region` a cell shows a flag exactly when it did
before, so no flag is ever cleared or visually opened by the fill.  (It
does, however, set `is_open` on flagged cells it dequeues, as the
counterexample records, so "flagged" and "open" can coexist.) -/
theorem reveal_preserves_flags (h w : Int) (b : Board) (p : Pos) (q : Pos) :
    ((reveal_empty_region h w b p) q).text = BtnText.flag
      ↔ (b q).text = BtnText.flag :=
  floodRun_text_flag h w (floodFuel h w) ⟨b, [p]⟩ q

/-! ## Claim C4: termination of the flood fill

A cell enters the work list only if it is closed, interior, and not yet
pending, and the popped cell is opened before its neighbours are
enqueued; so the quantity `2·#closed-interior-cells-not-pending + #pending`
strictly decreases with every loop iteration. -/

/-- The closed interior cells of a board. -/
def closedCells (h w : Int) (b : Board) : Finset Pos :=
  (interiorFinset h w).filter (fun q => (b q).is_open = false)

/-- The loop variant of `reveal_empty_region`. -/
def floodMeasure (h w : Int) (s : FloodState) : Nat :=
  2 * ((closedCells h w s.board) \ s.queue.toFinset).card + s.queue.length

theorem enqueueStep_measure_le (h w : Int) (b : Board) (cur : Pos)
    (acc : List Pos) (d : Int × Int) :
    2 * ((closedCells h w b) \ (enqueueStep h w b cur acc d).toFinset).card
        + (enqueueStep h w b cur acc d).length
      ≤ 2 * ((closedCells h w b) \ acc.toFinset).card + acc.length := by
  unfold enqueueStep
  split
  · rename_i hcond
    obtain ⟨hclosed, hin, hnot⟩ := hcond
    set nxt : Pos := (cur.1 + d.1, cur.2 + d.2) with hnxt
    have hmem : nxt ∈ (closedCells h w b) \ acc.toFinset := by
      rw [Finset.mem_sdiff, closedCells, Finset.mem_filter, mem_interiorFinset]
      exact ⟨⟨hin, hclosed⟩, fun hc => hnot (List.mem_toFinset.mp hc)⟩
    have htf : (acc ++ [nxt]).toFinset = insert nxt acc.toFinset := by
      ext q
      simp [List.toFinset_append, or_comm]
    have hsd : (closedCells h w b) \ (insert nxt acc.toFinset)
        = ((closedCells h w b) \ acc.toFinset).erase nxt := by
      ext q
      simp only [Finset.mem_sdiff, Finset.mem_insert, Finset.mem_erase]
      tauto
    rw [htf, hsd, Finset.card_erase_of_mem hmem, List.length_append]
    have hpos : 0 < ((closedCells h w b) \ acc.toFinset).card :=
      Finset.card_pos.mpr ⟨nxt, hmem⟩
    simp only [List.length_cons, List.length_nil]
    omega
  · exact le_refl _

theorem enqueue_fold_measure_le (h w : Int) (b : Board) (cur : Pos) :
    ∀ (ds : List (Int × Int)) (acc : List Pos),
      2 * ((closedCells h w b) \ (ds.foldl (enqueueStep h w b cur) acc).toFinset).card
          + (ds.foldl (enqueueStep h w b cur) acc).length
        ≤ 2 * ((closedCells h w b) \ acc.toFinset).card + acc.length := by
  intro ds
  induction ds with
  | nil => intro acc; exact le_refl _
  | cons d ds ih =>
      intro acc
      exact le_trans (ih (enqueueStep h w b cur acc d))
        (enqueueStep_measure_le h w b cur acc d)

theorem closedCells_setCell_open (h w : Int) (b : Board) (cur : Pos) (c : Cell)
    (hc : c.is_open = true) :
    closedCells h w (setCell b cur c) = (closedCells h w b).erase cur := by
  ext q
  simp only [closedCells, Finset.mem_filter, Finset.mem_erase, setCell]
  by_cases hq : q = cur
  · subst hq
    simp [hc]
  · simp [hq]

theorem floodStep_measure_lt (h w : Int) (s : FloodState) (hq : s.queue ≠ []) :
    floodMeasure h w (floodStep h w s) < floodMeasure h w s := by
  set cur := s.queue.getLast hq with hcur
  have hlast : s.queue.getLast? = some cur :=
    List.getLast?_eq_getLast s.queue hq
  set rest := s.queue.dropLast with hrest
  have hqdecomp : rest ++ [cur] = s.queue := List.dropLast_append_getLast hq
  -- the board after the iteration, with `cur` opened
  have hstep : floodStep h w s
      = ⟨setCell s.board cur
           { (if (s.board cur).text = BtnText.flag then s.board cur
              else { s.board cur with
                     text := if (s.board cur).adjacent_mines ≠ 0
                             then BtnText.num (s.board cur).adjacent_mines
                             else BtnText.blank,
                     disabled := true }) with is_open := true },
         if (s.board cur).adjacent_mines = 0
         then enqueueNeighbors h w
                (setCell s.board cur
                  { (if (s.board cur).text = BtnText.flag then s.board cur
                     else { s.board cur with
                            text := if (s.board cur).adjacent_mines ≠ 0
                                    then BtnText.num (s.board cur).adjacent_mines
                                    else BtnText.blank,
                            disabled := true }) with is_open := true })
                cur rest
         else rest⟩ := by
    rw [floodStep, hlast]
  set c2 : Cell :=
    { (if (s.board cur).text = BtnText.flag then s.board cur
       else { s.board cur with
              text := if (s.board cur).adjacent_mines ≠ 0
                      then BtnText.num (s.board cur).adjacent_mines
                      else BtnText.blank,
              disabled := true }) with is_open := true } with hc2
  have hc2open : c2.is_open = true := by
    rw [hc2]
  set b1 := setCell s.board cur c2 with hb1
  have hC1 : closedCells h w b1 = (closedCells h w s.board).erase cur :=
    closedCells_setCell_open h w s.board cur c2 hc2open
  -- the old measure, re-expressed over `rest` and the updated board
  have hqueue_tf : s.queue.toFinset = insert cur rest.toFinset := by
    rw [← hqdecomp]
    ext q
    simp [List.toFinset_append, or_comm]
  have hsd : (closedCells h w s.board) \ (insert cur rest.toFinset)
      = (closedCells h w b1) \ rest.toFinset := by
    rw [hC1]
    ext q
    simp only [Finset.mem_sdiff, Finset.mem_insert, Finset.mem_erase]
    tauto
  have hlen : s.queue.length = rest.length + 1 := by
    rw [← hqdecomp]
    simp
  have hold : floodMeasure h w s
      = 2 * ((closedCells h w b1) \ rest.toFinset).card + rest.length + 1 := by
    rw [floodMeasure, hqueue_tf, hsd, hlen]
    omega
  rw [hstep, hold]
  by_cases hadj : (s.board cur).adjacent_mines = 0
  · simp only [floodMeasure, hadj, if_true]
    have hb := enqueue_fold_measure_le h w b1 cur offsets rest
    rw [enqueueNeighbors]
    omega
  · simp only [floodMeasure, hadj, if_false]
    omega

theorem floodRun_empty_of_measure_le (h w : Int) :
    ∀ (n : Nat) (s : FloodState), floodMeasure h w s ≤ n →
      (floodRun h w n s).queue = [] := by
  intro n
  induction n with
  | zero =>
      intro s hs
      have : s.queue.length = 0 := by
        rw [floodMeasure] at hs
        omega
      exact List.length_eq_zero.mp this
  | succ n ih =>
      intro s hs
      by_cases hq : s.queue = []
      · simp [floodRun, hq]
      · rw [floodRun, if_neg hq]
        exact ih _ (by
          have := floodStep_measure_lt h w s hq
          omega)

/-- C4: the flood fill always terminates — for every board and every seed
cell, `floodFuel` iterations (one more than twice the number of interior
cells) drain the work list completely, because a cell is enqueued only
when closed and not pending and every popped cell is opened before its
neighbours are examined. -/
theorem reveal_empty_region_terminates (h w : Int) (b : Board) (p : Pos) :
    (floodRun h w (floodFuel h w) ⟨b, [p]⟩).queue = [] := by
  apply floodRun_empty_of_measure_le
  have hsub : (closedCells h w b) \ ([p] : List Pos).toFinset ⊆ interiorFinset h w :=
    fun q hq => Finset.mem_of_mem_filter q (Finset.mem_sdiff.mp hq).1
  have hcardI : (interiorFinset h w).card = h.toNat * w.toNat := by
    rw [interiorFinset, Finset.card_product, Int.card_Icc, Int.card_Icc]
    norm_num
  have hcard : ((closedCells h w b) \ ([p] : List Pos).toFinset).card
      ≤ h.toNat * w.toNat := by
    rw [← hcardI]
    exact Finset.card_le_card hsub
  rw [floodMeasure, floodFuel]
  simp only [List.length_cons, List.length_nil]
  omega

/-! ## Claim C7: leaderboard loading -/

theorem filter_orderedInsert_time (t : Int) (x : LeaderboardEntry)
    (s : List LeaderboardEntry) :
    (s.orderedInsert entLe x).filter (fun e => decide (e.time = t))
      = if x.time = t then x :: s.filter (fun e => decide (e.time = t))
        else s.filter (fun e => decide (e.time = t)) := by
  induction s with
  | nil =>
      by_cases hx : x.time = t <;> simp [List.orderedInsert, hx]
  | cons b l ih =>
      rw [List.orderedInsert]
      by_cases hle : entLe x b
      · rw [if_pos hle]
        by_cases hx : x.time = t <;> simp [List.filter_cons, hx]
      · rw [if_neg hle]
        by_cases hx : x.time = t
        · have hb : ¬(b.time = t) := by
            unfold entLe at hle
            omega
          simp [List.filter_cons, hb, ih, hx]
        · simp [List.filter_cons, ih, hx]

theorem filter_sortByTime (t : Int) (l : List LeaderboardEntry) :
    (sortByTime l).filter (fun e => decide (e.time = t))
      = l.filter (fun e => decide (e.time = t)) := by
  rw [sortByTime]
  induction l with
  | nil => rfl
  | cons a l ih =>
      rw [List.insertionSort, filter_orderedInsert_time]
      by_cases hx : a.time = t <;> simp [List.filter_cons, hx, ih]

theorem parseRow_some_bounds {row : List String} {e : LeaderboardEntry}
    (hrow : parseRow row = some e) :
    1 ≤ e.time ∧ e.time ≤ 999 ∧ e.name ≠ "" := by
  match row with
  | [] => simp [parseRow] at hrow
  | [a] => simp [parseRow] at hrow
  | a :: b :: d :: l => simp [parseRow] at hrow
  | [name, timeStr] =>
      rw [parseRow] at hrow
      split at hrow
      · exact absurd hrow (by simp)
      · rename_i tv _
        split at hrow
        · rename_i hpos
          have he := Option.some_injective _ hrow
          subst he
          refine ⟨?_, ?_, ?_⟩
          · by_cases hcl : 999 < tv <;> simp [hcl] <;> omega
          · by_cases hcl : 999 < tv <;> simp [hcl] <;> omega
          · by_cases hnm : name = "" <;> simp [hnm]
        · exact absurd hrow (by simp)

/-- C7: `load_leaderboards`, applied to any sequence of parsed CSV rows,
never raises and keeps exactly the well-formed rows — two fields, integer
time, positive time — clamping times above 999 to 999 and replacing empty
names with "Anonymous"; the result is sorted ascending by time with a
stable sort (ties stay in row order) and holds at most five entries. -/
theorem load_leaderboards_spec (rows : List (List String)) :
    load_rows rows = (sortByTime (rows.filterMap parseRow)).take 5
    ∧ (load_rows rows).length ≤ 5
    ∧ List.Sorted entLe (load_rows rows)
    ∧ (∀ e ∈ load_rows rows, 1 ≤ e.time ∧ e.time ≤ 999 ∧ e.name ≠ "")
    ∧ (∀ name timeStr t, pythonInt timeStr = some t → 0 < t →
        parseRow [name, timeStr]
          = some ⟨if name = "" then "Anonymous" else name,
                  if 999 < t then 999 else t⟩)
    ∧ (∀ name timeStr, pythonInt timeStr = none → parseRow [name, timeStr] = none)
    ∧ (∀ name timeStr t, pythonInt timeStr = some t → t ≤ 0 →
        parseRow [name, timeStr] = none)
    ∧ (∀ row, row.length ≠ 2 → parseRow row = none)
    ∧ (∀ t : Int,
        (sortByTime (rows.filterMap parseRow)).filter (fun e => decide (e.time = t))
          = (rows.filterMap parseRow).filter (fun e => decide (e.time = t))) := by
  refine ⟨rfl, ?_, ?_, ?_, ?_, ?_, ?_, ?_, ?_⟩
  · rw [load_rows]
    have := List.length_take 5 (sortByTime (rows.filterMap parseRow))
    omega
  · rw [load_rows]
    exact List.Pairwise.sublist (List.take_sublist _ _)
      (List.sorted_insertionSort entLe _)
  · intro e he
    have hmem : e ∈ sortByTime (rows.filterMap parseRow) :=
      (List.take_sublist _ _).mem he
    have hmem2 : e ∈ rows.filterMap parseRow :=
      (List.perm_insertionSort entLe _).mem_iff.mp hmem
    obtain ⟨row, _, hrow⟩ := List.mem_filterMap.mp hmem2
    exact parseRow_some_bounds hrow
  · intro name timeStr t hpi hpos
    simp [parseRow, hpi, hpos]
  · intro name timeStr hpi
    simp [parseRow, hpi]
  · intro name timeStr t hpi hle
    simp [parseRow, hpi, show ¬(0 < t) by omega]
  · intro row hrow
    match row with
    | [] => rfl
    | [a] => rfl
    | [a, b] => exact absurd rfl hrow
    | a :: b :: d :: l => rfl
  · intro t
    exact filter_sortByTime t _

/-! ## Claim C8: leaderboard qualification -/

theorem sorted_le_getLast {l : List LeaderboardEntry} (hs : List.Sorted entLe l)
    (hne : l ≠ []) : ∀ x ∈ l, x.time ≤ (l.getLast hne).time := by
  intro x hx
  have hdecomp : l.dropLast ++ [l.getLast hne] = l := List.dropLast_append_getLast hne
  rw [← hdecomp] at hs hx
  rcases List.mem_append.mp hx with h1 | h2
  · have := (List.pairwise_append.mp hs).2.2 x h1 (l.getLast hne) (by simp)
    exact this
  · simp at h2
    rw [h2]

theorem mem_update_of_qualifies (entries : List LeaderboardEntry) (name : String)
    (t : Int) (hs : List.Sorted entLe entries) (hl : entries.length ≤ 5)
    (hq : qualifies entries t = true) :
    (⟨name, t⟩ : LeaderboardEntry) ∈ (update_leaderboard entries name t).1 := by
  rw [update_leaderboard, if_pos hq]
  by_cases hlen : entries.length < 5
  · have hslen : (sortByTime (entries ++ [⟨name, t⟩])).length = entries.length + 1 := by
      rw [sortByTime, List.length_insertionSort, List.length_append]
      simp
    rw [List.take_of_length_le (by omega)]
    exact (List.perm_insertionSort entLe _).mem_iff.mpr (by simp)
  · have hlen5 : entries.length = 5 := by omega
    have hne : entries ≠ [] := by
      intro hc
      rw [hc] at hlen5
      simp at hlen5
    have hlastq : t < (entries.getLast hne).time := by
      rw [qualifies, List.getLast?_eq_getLast _ hne] at hq
      have hd : decide (entries.length < 5) = false := by
        simp
        omega
      rw [hd] at hq
      simpa using hq
    set s := sortByTime (entries ++ [⟨name, t⟩]) with hsdef
    have hperm : s.Perm (entries ++ [⟨name, t⟩]) := List.perm_insertionSort entLe _
    have hslen : s.length = 6 := by
      rw [hperm.length_eq, List.length_append, hlen5]
      simp
    have hsort : List.Sorted entLe s := List.sorted_insertionSort entLe _
    have hsne : s ≠ [] := by
      intro hc
      rw [hc] at hslen
      simp at hslen
    have hLmem : entries.getLast hne ∈ s :=
      hperm.mem_iff.mpr (List.mem_append_left _ (List.getLast_mem hne))
    have hgt : t < (s.getLast hsne).time :=
      lt_of_lt_of_le hlastq (sorted_le_getLast hsort hsne _ hLmem)
    have hnew_ne : (⟨name, t⟩ : LeaderboardEntry) ≠ s.getLast hsne := by
      intro hc
      rw [← hc] at hgt
      exact lt_irrefl _ hgt
    have hnew_mem : (⟨name, t⟩ : LeaderboardEntry) ∈ s :=
      hperm.mem_iff.mpr (by simp)
    have hdecomp : s.dropLast ++ [s.getLast hsne] = s :=
      List.dropLast_append_getLast hsne
    have hmem' : (⟨name, t⟩ : LeaderboardEntry) ∈ s.dropLast := by
      rw [← hdecomp] at hnew_mem
      rcases List.mem_append.mp hnew_mem with h1 | h2
      · exact h1
      · simp at h2
        exact absurd h2 hnew_ne
    have htake : s.take 5 = s.dropLast := by
      rw [List.dropLast_eq_take, hslen]
    rw [htake]
    exact hmem'

/-- C8: a winning time enters a preset leaderboard exactly when fewer than
five entries are loaded or the time beats the current fifth-place (last)
entry strictly; when the time qualifies the new entry is really present in
the stored top five and the save path runs, and when it does not qualify
the entries are returned untouched and nothing is persisted. -/
theorem update_leaderboard_spec (entries : List LeaderboardEntry) (name : String)
    (t : Int) (hs : List.Sorted entLe entries) (hl : entries.length ≤ 5) :
    (qualifies entries t = true ↔
      (entries.length < 5
        ∨ (entries.length = 5 ∧ ∃ e, entries.getLast? = some e ∧ t < e.time)))
    ∧ (qualifies entries t = true →
        ((⟨name, t⟩ : LeaderboardEntry) ∈ (update_leaderboard entries name t).1
          ∧ (update_leaderboard entries name t).2 = true))
    ∧ (qualifies entries t = false →
        update_leaderboard entries name t = (entries, false)) := by
  refine ⟨?_, ?_, ?_⟩
  · rw [qualifies]
    cases hlast : entries.getLast? with
    | none =>
        have : entries = [] := List.getLast?_eq_none_iff.mp hlast
        subst this
        simp
    | some e =>
        simp only [Bool.or_eq_true, decide_eq_true_eq]
        constructor
        · rintro (h1 | h2)
          · exact Or.inl h1
          · by_cases hlen : entries.length < 5
            · exact Or.inl hlen
            · exact Or.inr ⟨by omega, e, rfl, by simpa using h2⟩
        · rintro (h1 | ⟨_, e2, he2, ht2⟩)
          · exact Or.inl h1
          · have he : e = e2 := by injection he2
            subst he
            exact Or.inr (by simpa using ht2)
  · intro hq
    refine ⟨mem_update_of_qualifies entries name t hs hl hq, ?_⟩
    rw [update_leaderboard, if_pos hq]
  · intro hq
    rw [update_leaderboard, if_neg (by simp [hq])]

/-- C8 witness: a full leaderboard of five sorted entries and a strictly
better time. -/
theorem update_leaderboard_spec_witness :
    (List.Sorted entLe
        [⟨"a", 1⟩, ⟨"b", 2⟩, ⟨"c", 3⟩, ⟨"d", 4⟩, ⟨"e", 5⟩]
      ∧ ([⟨"a", 1⟩, ⟨"b", 2⟩, ⟨"c", 3⟩, ⟨"d", 4⟩,
          (⟨"e", 5⟩ : LeaderboardEntry)]).length ≤ 5)
    ∧ ((qualifies [⟨"a", 1⟩, ⟨"b", 2⟩, ⟨"c", 3⟩, ⟨"d", 4⟩, ⟨"e", 5⟩] 3 = true ↔
        (([⟨"a", 1⟩, ⟨"b", 2⟩, ⟨"c", 3⟩, ⟨"d", 4⟩,
            (⟨"e", 5⟩ : LeaderboardEntry)]).length < 5
          ∨ (([⟨"a", 1⟩, ⟨"b", 2⟩, ⟨"c", 3⟩, ⟨"d", 4⟩,
              (⟨"e", 5⟩ : LeaderboardEntry)]).length = 5
            ∧ ∃ e, ([⟨"a", 1⟩, ⟨"b", 2⟩, ⟨"c", 3⟩, ⟨"d", 4⟩,
                (⟨"e", 5⟩ : LeaderboardEntry)]).getLast? = some e ∧ 3 < e.time)))
      ∧ (qualifies [⟨"a", 1⟩, ⟨"b", 2⟩, ⟨"c", 3⟩, ⟨"d", 4⟩, ⟨"e", 5⟩] 3 = true →
          ((⟨"Ann", 3⟩ : LeaderboardEntry)
              ∈ (update_leaderboard
                  [⟨"a", 1⟩, ⟨"b", 2⟩, ⟨"c", 3⟩, ⟨"d", 4⟩, ⟨"e", 5⟩] "Ann" 3).1
            ∧ (update_leaderboard
                [⟨"a", 1⟩, ⟨"b", 2⟩, ⟨"c", 3⟩, ⟨"d", 4⟩, ⟨"e", 5⟩] "Ann" 3).2 = true))
      ∧ (qualifies [⟨"a", 1⟩, ⟨"b", 2⟩, ⟨"c", 3⟩, ⟨"d", 4⟩, ⟨"e", 5⟩] 3 = false →
          update_leaderboard [⟨"a", 1⟩, ⟨"b", 2⟩, ⟨"c", 3⟩, ⟨"d", 4⟩, ⟨"e", 5⟩] "Ann" 3
            = ([⟨"a", 1⟩, ⟨"b", 2⟩, ⟨"c", 3⟩, ⟨"d", 4⟩, ⟨"e", 5⟩], false))) :=
  ⟨⟨by decide, by decide⟩,
    update_leaderboard_spec [⟨"a", 1⟩, ⟨"b", 2⟩, ⟨"c", 3⟩, ⟨"d", 4⟩, ⟨"e", 5⟩]
      "Ann" 3 (by decide) (by decide)⟩

/-! ## Claim C6: the range of stored times

`game_won` computes `elapsed` from the wall clock and passes it to
`update_leaderboard`, which appends `LeaderboardEntry(name, time_elapsed)`
with no clamping; only `load_leaderboards` clamps on the way back in. -/

/-- C6 counterexample: a win taking 1000 seconds on an empty preset
leaderboard stores and persists the entry with time 1000 — outside
`[1, 999]`, because the win path never clamps. -/
theorem win_time_unclamped_counterexample :
    (⟨"Ann", 1000⟩ : LeaderboardEntry) ∈ (update_leaderboard [] "Ann" 1000).1
    ∧ ¬((1000 : Int) ≤ 999) := by
  decide

/-- C6 amended: every entry produced by the loader has its time in
`[1, 999]`, but an entry added on a win keeps the raw elapsed time
unclamped — whenever the time qualifies, the stored (and persisted) entry
carries exactly the elapsed value, even above 999; the value is clamped
only when the file is next loaded. -/
theorem leaderboard_time_bounds_amended (rows : List (List String))
    (entries : List LeaderboardEntry) (name : String) (t : Int)
    (hs : List.Sorted entLe entries) (hl : entries.length ≤ 5)
    (hq : qualifies entries t = true) :
    (∀ e ∈ load_rows rows, 1 ≤ e.time ∧ e.time ≤ 999)
    ∧ (⟨name, t⟩ : LeaderboardEntry) ∈ (update_leaderboard entries name t).1 := by
  constructor
  · intro e he
    have hmem : e ∈ sortByTime (rows.filterMap parseRow) :=
      (List.take_sublist _ _).mem he
    have hmem2 : e ∈ rows.filterMap parseRow :=
      (List.perm_insertionSort entLe _).mem_iff.mp hmem
    obtain ⟨row, _, hrow⟩ := List.mem_filterMap.mp hmem2
    exact ⟨(parseRow_some_bounds hrow).1, (parseRow_some_bounds hrow).2.1⟩
  · exact mem_update_of_qualifies entries name t hs hl hq

/-- C6 witness: loading one good row, then a qualifying win of 1000
seconds entering an empty leaderboard unclamped. -/
theorem leaderboard_time_bounds_amended_witness :
    (List.Sorted entLe ([] : List LeaderboardEntry)
      ∧ ([] : List LeaderboardEntry).length ≤ 5
      ∧ qualifies [] 1000 = true)
    ∧ ((∀ e ∈ load_rows [["a", "5"]], 1 ≤ e.time ∧ e.time ≤ 999)
      ∧ (⟨"Ann", 1000⟩ : LeaderboardEntry)
          ∈ (update_leaderboard [] "Ann" 1000).1) :=
  ⟨⟨by decide, by decide, by decide⟩,
    leaderboard_time_bounds_amended [["a", "5"]] [] "Ann" 1000
      (by decide) (by decide) (by decide)⟩

/-! ## Claim C10: wins on non-preset boards -/

/-- C10: when the current `(height, width, mines)` is not exactly one of
the three presets, `game_won` leaves every in-memory leaderboard untouched,
shows no name prompt, and writes no file. -/
theorem game_won_nonpreset_frame (h w m elapsed : Int)
    (mem : Difficulty → List LeaderboardEntry)
    (disk : Difficulty → List (List String)) (player_name : String)
    (hnp : ¬((h = 9 ∧ w = 9 ∧ m = 15) ∨ (h = 16 ∧ w = 16 ∧ m = 40)
        ∨ (h = 16 ∧ w = 30 ∧ m = 99))) :
    (game_won h w m elapsed mem disk player_name).leaderboards = mem
    ∧ (game_won h w m elapsed mem disk player_name).prompted = false
    ∧ (game_won h w m elapsed mem disk player_name).saved = false := by
  have hdo : difficultyOf h w m = none := by
    rw [difficultyOf, if_neg, if_neg, if_neg] <;> tauto
  simp [game_won, hdo]

/-- C10 witness: a 10×10 board with 10 mines is none of the presets. -/
theorem game_won_nonpreset_frame_witness :
    (¬((((10 : Int) = 9 ∧ (10 : Int) = 9 ∧ (10 : Int) = 15))
        ∨ ((10 : Int) = 16 ∧ (10 : Int) = 16 ∧ (10 : Int) = 40)
        ∨ ((10 : Int) = 16 ∧ (10 : Int) = 30 ∧ (10 : Int) = 99)))
    ∧ ((game_won 10 10 10 50 (fun _ => []) (fun _ => []) "x").leaderboards
        = (fun _ => [])
      ∧ (game_won 10 10 10 50 (fun _ => []) (fun _ => []) "x").prompted = false
      ∧ (game_won 10 10 10 50 (fun _ => []) (fun _ => []) "x").saved = false) :=
  ⟨by decide,
    game_won_nonpreset_frame 10 10 10 50 (fun _ => []) (fun _ => []) "x" (by decide)⟩

end Minesweeper
